import Mathlib

/-!
Shallow embedding of the local spatial bivariate statistics engine of
liana-py, covering:

* `src/liana/method/sp/_bivariate_funs.py`
  (`_wcorr`, `_wcoex`, `_masked_coexpressions`, `_vectorized_correlations`,
  `_vectorized_wcosine`, `_vectorized_jaccard`);
* `src/liana/method/sp/_spatial_utils.py`
  (`get_spatial_proximity`, `_local_permutation_pvals`,
  `_standardize_matrix`, `_encode_as_char`, `_categorize`,
  `_simplify_cats`).

Matrices are represented as functions out of `Fin`.  Machine floating
point arithmetic is modelled by exact rational arithmetic (`ℚ`) for all
moment computations; square roots, exponentials and the final statistic
values live in `ℝ`.  Entity matrices `x_mat`, `y_mat` are spot-by-pair
(`Fin S → Fin P → ℚ`), matching the orientation the Python functions
receive.
-/

namespace Liana

/-- Python exceptions which the embedded functions can raise. -/
inductive PyError where
  | assertionError : String → PyError
  | valueError : String → PyError
deriving DecidableEq

/-- The float32 machine epsilon `np.finfo(np.float32).eps`, the epsilon added to cosine and jaccard
denominators; it equals `2⁻²³` exactly. -/
def f32eps : ℚ := 1 / 2 ^ 23

/-- The `1e-6` threshold below which `_vectorized_correlations` clamps the
denominator to zero. -/
def denomEps : ℚ := 1 / 1000000

/-! ### Ranking

`_wcorr` ranks with `np.argsort(x).argsort()`: ordinal (competition-free)
ranks, ties receiving distinct consecutive ranks in index order (stable
sort), zero-based.  `_vectorized_correlations` ranks with
`scipy.stats.rankdata`: average ranks for ties, one-based. -/

/-- Ordinal rank of position `k` within the index set `s` (the value of
`np.argsort(..).argsort()` at `k`, restricted to the masked subvector). -/
def ordRank {n : ℕ} (s : Finset (Fin n)) (x : Fin n → ℚ) (k : Fin n) : ℚ :=
  ((s.filter (fun j => x j < x k ∨ (x j = x k ∧ j < k))).card : ℚ)

/-- Average (midrank) one-based rank of position `k`, the value of
`scipy.stats.rankdata` at `k`. -/
def avgRank {n : ℕ} (x : Fin n → ℚ) (k : Fin n) : ℚ :=
  ((Finset.univ.filter (fun j => x j < x k)).card : ℚ) +
    (((Finset.univ.filter (fun j => x j = x k)).card : ℚ) + 1) / 2

/-! ### Masked engine: `_wcorr`, `_wcoex`, `_masked_coexpressions`

`_wcorr` receives the already-masked subvectors `x, y, w` together with
`wsum = Σ w`.  We represent the masked subvectors by summing over the
mask `s : Finset (Fin n)`; extracting a boolean-masked subarray and
summing it is the same as summing over the mask. -/

/-- The quantity `wsum`, the sum of the masked weights. -/
def wsumOf {n : ℕ} (s : Finset (Fin n)) (w : Fin n → ℚ) : ℚ := ∑ k ∈ s, w k

/-- The `numerator = wsum * sum(wx * y) - sum(wx) * sum(wy)` of `_wcorr`. -/
def wcorrNum {n : ℕ} (s : Finset (Fin n)) (w x y : Fin n → ℚ) : ℚ :=
  wsumOf s w * (∑ k ∈ s, w k * x k * y k) -
    (∑ k ∈ s, w k * x k) * (∑ k ∈ s, w k * y k)

/-- The `denominator_x = wsum * sum(w * (x**2)) - sum(wx)**2` of `_wcorr`. -/
def wcorrDenX {n : ℕ} (s : Finset (Fin n)) (w x : Fin n → ℚ) : ℚ :=
  wsumOf s w * (∑ k ∈ s, w k * x k ^ 2) - (∑ k ∈ s, w k * x k) ^ 2

/-- The `denominator = denominator_x * denominator_y` of `_wcorr`. -/
def wcorrDen {n : ℕ} (s : Finset (Fin n)) (w x y : Fin n → ℚ) : ℚ :=
  wcorrDenX s w x * wcorrDenX s w y

/-- Embedding of `_wcorr(x, y, w, wsum, rank)`: weighted Pearson correlation of the
masked subvectors, with optional ordinal rank transform; returns `0` when
the denominator or the numerator is exactly zero, otherwise
`numerator / denominator ** 0.5`. -/
noncomputable def wcorr {n : ℕ} (s : Finset (Fin n)) (w x y : Fin n → ℚ)
    (rank : Bool) : ℝ :=
  let x' := if rank then ordRank s x else x
  let y' := if rank then ordRank s y else y
  if wcorrDen s w x' y' = 0 ∨ wcorrNum s w x' y' = 0 then 0
  else (wcorrNum s w x' y' : ℝ) / Real.sqrt ((wcorrDen s w x' y' : ℝ))

/-- The mask `msk = w > weight_thr` of `_masked_coexpressions`. -/
def maskOf {n : ℕ} (w : Fin n → ℚ) (thr : ℚ) : Finset (Fin n) :=
  Finset.univ.filter (fun k => thr < w k)

/-- Embedding of `_masked_coexpressions(x_mat, y_mat, weight, weight_thr, method)` at
spot `i` and pair `j` (`rank = true` is method 1, spearman; `rank = false`
is method 0, pearson, via `_wcoex`). -/
noncomputable def masked_coexpressions {S P : ℕ} (x_mat y_mat : Fin S → Fin P → ℚ)
    (weight : Fin S → Fin S → ℚ) (weight_thr : ℚ) (rank : Bool)
    (i : Fin S) (j : Fin P) : ℝ :=
  wcorr (maskOf (weight i) weight_thr) (weight i)
    (fun k => x_mat k j) (fun k => y_mat k j) rank

/-! ### Vectorized engine: `_vectorized_correlations`

Inside the function `x_mat`, `y_mat` are transposed to pair-by-spot and
`weight = dist.A.T`, so every moment at output cell `(p, i)` contracts
against row `i` of `dist`, and `weight_sums i` is the sum of row `i` of
`dist`. -/

/-- The `weight_sums` entry at spot `i`: the sum of row `i` of `dist`. -/
def weightSums {S : ℕ} (dist : Fin S → Fin S → ℚ) (i : Fin S) : ℚ :=
  ∑ k, dist i k

/-- A dot product of a spot-vector against row `i` of `dist`
(an entry of `v.dot(weight)` in the transposed layout). -/
def wdot {S : ℕ} (dist : Fin S → Fin S → ℚ) (v : Fin S → ℚ) (i : Fin S) : ℚ :=
  ∑ k, v k * dist i k

/-- Column `p` of the (possibly rank-transformed) entity matrix, as a
spot-vector: `rankdata(x_mat, axis=1)` row when `rank` is set. -/
def vecCol {S P : ℕ} (x_mat : Fin S → Fin P → ℚ) (rank : Bool) (p : Fin P) :
    Fin S → ℚ :=
  if rank then avgRank (fun s => x_mat s p) else fun s => x_mat s p

/-- The `numerator = n1 - n2` of `_vectorized_correlations` at cell `(p, i)`. -/
def vecNumerator {S P : ℕ} (x_mat y_mat : Fin S → Fin P → ℚ)
    (dist : Fin S → Fin S → ℚ) (rank : Bool) (p : Fin P) (i : Fin S) : ℚ :=
  (∑ k, vecCol x_mat rank p k * vecCol y_mat rank p k * dist i k) *
      weightSums dist i -
    wdot dist (vecCol x_mat rank p) i * wdot dist (vecCol y_mat rank p) i

/-- The `denominator_x` of `_vectorized_correlations` at cell `(p, i)`. -/
def vecDenX {S : ℕ} (dist : Fin S → Fin S → ℚ) (col : Fin S → ℚ) (i : Fin S) : ℚ :=
  weightSums dist i * (∑ k, col k ^ 2 * dist i k) - wdot dist col i ^ 2

/-- The `denominator = denominator_x * denominator_y` at cell `(p, i)`. -/
def vecDenominator {S P : ℕ} (x_mat y_mat : Fin S → Fin P → ℚ)
    (dist : Fin S → Fin S → ℚ) (rank : Bool) (p : Fin P) (i : Fin S) : ℚ :=
  vecDenX dist (vecCol x_mat rank p) i * vecDenX dist (vecCol y_mat rank p) i

/-- The clamp `denominator[denominator < 1e-6] = 0`. -/
def clampDenominator (d : ℚ) : ℚ := if d < denomEps then 0 else d

/-- The clip `np.clip(r, -1, 1)`. -/
noncomputable def npClip (lo hi r : ℝ) : ℝ := min hi (max lo r)

/-- Embedding of `_vectorized_correlations(x_mat, y_mat, dist, method)` at cell
`(p, i)`; `rank = true` is `method="spearman"`, `rank = false` is
`method="pearson"`.  Denominators below `1e-6` are clamped to `0`, the
division falls back to `0` where the (square-rooted) denominator is `0`,
and the result is clipped to `[-1, 1]`. -/
noncomputable def vectorized_correlations {S P : ℕ}
    (x_mat y_mat : Fin S → Fin P → ℚ) (dist : Fin S → Fin S → ℚ)
    (rank : Bool) (p : Fin P) (i : Fin S) : ℝ :=
  let den := clampDenominator (vecDenominator x_mat y_mat dist rank p i)
  let r : ℝ :=
    if den = 0 then 0
    else (vecNumerator x_mat y_mat dist rank p i : ℝ) / Real.sqrt ((den : ℝ))
  npClip (-1) 1 r

/-- Embedding of `_vectorized_wcosine(x_mat, y_mat, dist)` at cell `(p, i)`.  Note that
the numerator contracts against row `i` of `dist` (via `weight`) while the
denominator contracts against column `i` (via `weight.T`). -/
noncomputable def vectorized_wcosine {S P : ℕ} (x_mat y_mat : Fin S → Fin P → ℚ)
    (dist : Fin S → Fin S → ℚ) (p : Fin P) (i : Fin S) : ℝ :=
  let xy := ∑ k, x_mat k p * y_mat k p * dist i k
  let xd := ∑ k, x_mat k p ^ 2 * dist k i
  let yd := ∑ k, y_mat k p ^ 2 * dist k i
  (xy : ℝ) / Real.sqrt (((xd * yd + f32eps : ℚ) : ℝ))

/-- Binarization `v > 0` of `_vectorized_jaccard`, as a `0/1` rational. -/
def binPos (v : ℚ) : ℚ := if 0 < v then 1 else 0

/-- Embedding of `_vectorized_jaccard(x_mat, y_mat, dist)` at cell `(p, i)`: weighted
minimum over weighted maximum (plus `f32eps`) of the binarized inputs. -/
def vectorized_jaccard {S P : ℕ} (x_mat y_mat : Fin S → Fin P → ℚ)
    (dist : Fin S → Fin S → ℚ) (p : Fin P) (i : Fin S) : ℚ :=
  (∑ k, min (binPos (x_mat k p)) (binPos (y_mat k p)) * dist i k) /
    ((∑ k, max (binPos (x_mat k p)) (binPos (y_mat k p)) * dist i k) + f32eps)

/-! ### Sign-categorization: `_standardize_matrix`, `_encode_as_char`,
`_categorize`, `_simplify_cats` -/

/-- Column mean of a spot-by-entity matrix. -/
def colMean {S C : ℕ} (mat : Fin S → Fin C → ℚ) (c : Fin C) : ℚ :=
  (∑ s, mat s c) / (S : ℚ)

/-- Embedding of `_standardize_matrix(mat, local=True)`: subtract each column's mean. -/
def standardize_matrix {S C : ℕ} (mat : Fin S → Fin C → ℚ) :
    Fin S → Fin C → ℚ :=
  fun s c => mat s c - colMean mat c

/-- The map `np.where(a > 0, 'P', np.where(a < 0, 'N', 'Z'))` at one cell. -/
def signChar (v : ℚ) : Char :=
  if 0 < v then 'P' else if v < 0 then 'N' else 'Z'

/-- Embedding of `_encode_as_char(a)`: if every entry of the whole matrix is
non-negative, first mean-center every column, then encode signs as
characters. -/
def encode_as_char {S C : ℕ} (mat : Fin S → Fin C → ℚ) : Fin S → Fin C → Char :=
  let a := if ∀ s c, 0 ≤ mat s c then standardize_matrix mat else mat
  fun s c => signChar (a s c)

/-- Embedding of `_categorize(x, y)`: elementwise character concatenation. -/
def categorize (a b : Char) : String := String.mk [a, b]

/-- One cell of the dataframe produced by `_simplify_cats`: either a
replaced integer or the untouched original string. -/
inductive DfCell where
  | ival : ℤ → DfCell
  | sval : String → DfCell
deriving DecidableEq

/-- Embedding of `_simplify_cats(df)` at one cell.  Pandas `DataFrame.replace` with a plain
dict (and the default `regex=False`) matches keys exactly, so the key
`'(^*Z*$)'` only matches a cell holding that literal string; labels that
merely contain `'Z'` are left unchanged. -/
def simplify_cats (s : String) : DfCell :=
  if s = "(^*Z*$)" then .ival 0
  else if s = "NN" then .ival 0
  else if s = "PP" then .ival 1
  else if s = "PN" then .ival (-1)
  else if s = "NP" then .ival (-1)
  else .sval s

/-! ### Permutation significance tester: `_local_permutation_pvals`

The statistic function `local_fun` is an argument of the Python function;
we keep it as an argument, with rational-valued scores.  Numpy's seeded
`default_rng` is external library code, so its byte-level behaviour is
modelled (see `rngInit`, `rngNext`, `rngPerm`) as a deterministic
generator state initialized from the seed alone, advanced once per drawn
permutation — exactly the structure the Python code relies on. -/

/-- Modelled from the spec: `np.random.default_rng(seed)` — a
deterministic pseudo-random generator state derived from the seed alone
(numpy's PCG64 initialization is external to the repository). -/
def rngInit (seed : ℕ) : ℕ := (seed + 11400714819323198485) % 2 ^ 64

/-- Modelled from the spec: one advancement of the deterministic
generator state (a linear-congruential step standing in for PCG64). -/
def rngNext (st : ℕ) : ℕ := (st * 6364136223846793005 + 1442695040888963407) % 2 ^ 64

/-- Modelled from the spec: `rng.permutation(spot_n)` — the spot
permutation drawn from the current generator state (a rotation standing
in for numpy's shuffle; the claims depend only on the draw being a
deterministic function of the state). -/
def rngPerm {S : ℕ} (st : ℕ) : Fin S → Fin S :=
  fun s => ⟨(s.val + st) % S, Nat.mod_lt _ s.pos⟩

/-- The accumulation loop of `_local_permutation_pvals` after `n`
iterations: the generator state and the per-cell counts of permuted
scores meeting-or-exceeding the true score (in magnitude unless
`positive_only`). -/
def permLoop {S P : ℕ} (x_mat y_mat : Fin S → Fin P → ℚ)
    (dist : Fin S → Fin S → ℚ) (local_truth : Fin P → Fin S → ℚ)
    (local_fun : (Fin S → Fin P → ℚ) → (Fin S → Fin P → ℚ) →
      (Fin S → Fin S → ℚ) → Fin P → Fin S → ℚ)
    (positive_only : Bool) (seed : ℕ) : ℕ → ℕ × (Fin P → Fin S → ℚ)
  | 0 => (rngInit seed, fun _ _ => 0)
  | n + 1 =>
    let prev := permLoop x_mat y_mat dist local_truth local_fun positive_only seed n
    let σ : Fin S → Fin S := rngPerm prev.1
    let score := local_fun (fun s q => x_mat (σ s) q) y_mat dist
    (rngNext prev.1,
      fun q s => prev.2 q s +
        if positive_only then (if local_truth q s ≤ score q s then 1 else 0)
        else if |local_truth q s| ≤ |score q s| then 1 else 0)

/-- The accumulated indicator counts after all `n_perm` iterations
(`range` of a non-positive count is empty). -/
def permCounts {S P : ℕ} (x_mat y_mat : Fin S → Fin P → ℚ)
    (dist : Fin S → Fin S → ℚ) (local_truth : Fin P → Fin S → ℚ)
    (local_fun : (Fin S → Fin P → ℚ) → (Fin S → Fin P → ℚ) →
      (Fin S → Fin S → ℚ) → Fin P → Fin S → ℚ)
    (positive_only : Bool) (n_perm : ℤ) (seed : ℕ) : Fin P → Fin S → ℚ :=
  (permLoop x_mat y_mat dist local_truth local_fun positive_only seed n_perm.toNat).2

/-- The p-value matrix of `_local_permutation_pvals`: counts divided by
`n_perm` (`none` marks the NaN produced by `0.0 / 0` when `n_perm = 0`),
then, under `positive_only`, cells where neither original `x` nor `y`
value is positive are overwritten with `1`. -/
def local_permutation_pvals_values {S P : ℕ} (x_mat y_mat : Fin S → Fin P → ℚ)
    (dist : Fin S → Fin S → ℚ) (local_truth : Fin P → Fin S → ℚ)
    (local_fun : (Fin S → Fin P → ℚ) → (Fin S → Fin P → ℚ) →
      (Fin S → Fin S → ℚ) → Fin P → Fin S → ℚ)
    (n_perm : ℤ) (seed : ℕ) (positive_only : Bool) :
    Fin P → Fin S → Option ℚ :=
  fun q s =>
    if positive_only = true ∧ ¬(0 < x_mat s q ∨ 0 < y_mat s q) then some 1
    else if n_perm = 0 then none
    else some (permCounts x_mat y_mat dist local_truth local_fun positive_only
      n_perm seed q s / (n_perm : ℚ))

/-- Embedding of `_local_permutation_pvals(...)` including its (absent) error channel:
the function body contains no `raise`, so every call returns normally. -/
def local_permutation_pvals {S P : ℕ} (x_mat y_mat : Fin S → Fin P → ℚ)
    (dist : Fin S → Fin S → ℚ) (local_truth : Fin P → Fin S → ℚ)
    (local_fun : (Fin S → Fin P → ℚ) → (Fin S → Fin P → ℚ) →
      (Fin S → Fin S → ℚ) → Fin P → Fin S → ℚ)
    (n_perm : ℤ) (seed : ℕ) (positive_only : Bool) :
    Except PyError (Fin P → Fin S → Option ℚ) :=
  Except.ok (local_permutation_pvals_values x_mat y_mat dist local_truth
    local_fun n_perm seed positive_only)

/-! ### Proximity builder: `get_spatial_proximity` -/

/-- The caller-supplied analysis object: optional spot coordinates in
`.obsm['spatial']` and the optional `.obsm['proximity']` slot. -/
structure AnnData (S : ℕ) where
  spatial : Option (Fin S → ℝ × ℝ)
  obsm_proximity : Option (Fin S → Fin S → ℝ)

/-- The `families` list validated by `get_spatial_proximity`. -/
def families : List String := ["gaussian", "spatialdm", "exponential", "linear"]

/-- Pairwise Euclidean distance matrix
(`squareform(pdist(coordinates, 'euclidean'))`). -/
noncomputable def euclidDist {S : ℕ} (coords : Fin S → ℝ × ℝ) (i j : Fin S) : ℝ :=
  Real.sqrt (((coords i).1 - (coords j).1) ^ 2 + ((coords i).2 - (coords j).2) ^ 2)

/-- The kernel `if/elif` chain of `get_spatial_proximity`.  Note the
branch names: `gaussian`, `misty_rbf`, `exponential`, `linear` — a family
matching none of them (in particular the validated `spatialdm`) leaves
the distances untransformed. -/
noncomputable def applyKernel {S : ℕ} (family : String) (parameter : ℝ)
    (d : Fin S → Fin S → ℝ) : Fin S → Fin S → ℝ :=
  if family = "gaussian" then
    fun i j => Real.exp (-(d i j ^ 2) / (2 * parameter ^ 2))
  else if family = "misty_rbf" then
    fun i j => Real.exp (-(d i j ^ 2) / parameter ^ 2)
  else if family = "exponential" then
    fun i j => Real.exp (-(d i j) / parameter)
  else if family = "linear" then
    fun i j => if 1 - d i j / parameter < 0 then 0 else 1 - d i j / parameter
  else d

/-- Modelled from the spec: the `sklearn.neighbors` k-nearest-neighbor
adjacency used as a mask — rows of the proximity matrix are treated as
points, and entry `(i, j)` is `1` when row `j` is among the `k` nearest
rows to row `i` (ties broken by index), else `0`.  `sklearn` itself is
external to the repository. -/
noncomputable def knnAdj {S : ℕ} (prox : Fin S → Fin S → ℝ) (k : ℕ)
    (i j : Fin S) : ℝ :=
  let d2 : Fin S → Fin S → ℝ := fun a b => ∑ t, (prox a t - prox b t) ^ 2
  if (Finset.univ.filter
      (fun j2 => d2 i j2 < d2 i j ∨ (d2 i j2 = d2 i j ∧ j2 ≤ j))).card ≤ k
  then 1 else 0

/-- The proximity matrix computed by `get_spatial_proximity` from the
coordinates: kernel, optional diagonal zeroing, optional cutoff, optional
k-NN masking.  (The `float16` downcast for more than 1000 spots is a
precision cast only and the `csr_matrix` conversion does not change the
stored values; both are identities in this exact-arithmetic model.) -/
noncomputable def proximityOf {S : ℕ} (coords : Fin S → ℝ × ℝ) (parameter : ℝ)
    (family : String) (cutoff : Option ℝ) (n_neighbors : Option ℕ)
    (bypass_diagonal : Bool) : Fin S → Fin S → ℝ :=
  let prox0 := applyKernel family parameter (euclidDist coords)
  let prox1 := if bypass_diagonal then
      (fun i j => if i = j then 0 else prox0 i j) else prox0
  let prox2 := match cutoff with
    | none => prox1
    | some c => fun i j => if prox1 i j < c then 0 else prox1 i j
  match n_neighbors with
  | none => prox2
  | some k => fun i j => prox2 i j * knnAdj prox2 k i j

/-- Embedding of `get_spatial_proximity(adata, parameter, family, cutoff, n_neighbors,
bypass_diagonal, inplace)`: validates the family (AssertionError), the
`cutoff`/`n_neighbors` combination (ValueError) and the presence of
spatial coordinates (AssertionError); always stores the computed matrix
in `adata.obsm['proximity']`, and returns it exactly when
`inplace = False`. -/
noncomputable def get_spatial_proximity {S : ℕ} (adata : AnnData S)
    (parameter : ℝ) (family : String) (cutoff : Option ℝ)
    (n_neighbors : Option ℕ) (bypass_diagonal : Bool) (inplace : Bool) :
    Except PyError (AnnData S × Option (Fin S → Fin S → ℝ)) :=
  if family ∉ families then
    .error (.assertionError (family ++ " must be a member of the families"))
  else if cutoff.isNone ∧ n_neighbors.isNone then
    .error (.valueError "cutoff or n_neighbors must be provided!")
  else
    match adata.spatial with
    | none => .error (.assertionError "spatial not in adata.obsm")
    | some coords =>
      let prox := proximityOf coords parameter family cutoff n_neighbors
        bypass_diagonal
      .ok ({ adata with obsm_proximity := some prox },
        if inplace then none else some prox)

/-! ### Algebraic facts about the weighted-correlation moments -/

/-- Lagrange-type identity: the symmetrized double sum of weighted
coordinate differences equals twice the weighted-correlation numerator. -/
lemma lagrange_sum {n : ℕ} (s : Finset (Fin n)) (w x y : Fin n → ℚ) :
    ∑ i ∈ s, ∑ j ∈ s, w i * w j * ((x i - x j) * (y i - y j)) =
      2 * wcorrNum s w x y := by
  have h : ∀ i j : Fin n, w i * w j * ((x i - x j) * (y i - y j)) =
      w i * x i * y i * w j + w i * (w j * x j * y j) -
        w i * x i * (w j * y j) - w i * y i * (w j * x j) := by
    intro i j; ring
  simp only [h, Finset.sum_add_distrib, Finset.sum_sub_distrib,
    ← Finset.mul_sum, ← Finset.sum_mul]
  unfold wcorrNum wsumOf
  ring

/-- Cauchy–Schwarz with non-negative weights, over `ℚ`. -/
lemma weighted_cauchy_schwarz {ι : Type*} (s : Finset ι) (μ a b : ι → ℚ)
    (hμ : ∀ i ∈ s, 0 ≤ μ i) :
    (∑ i ∈ s, μ i * (a i * b i)) ^ 2 ≤
      (∑ i ∈ s, μ i * a i ^ 2) * ∑ i ∈ s, μ i * b i ^ 2 :=
  Finset.sum_sq_le_sum_mul_sum_of_sq_eq_mul s
    (fun i hi => mul_nonneg (hμ i hi) (sq_nonneg _))
    (fun i hi => mul_nonneg (hμ i hi) (sq_nonneg _))
    (fun _ _ => by ring)

/-- The numerator of a variable against itself is its denominator. -/
lemma wcorrNum_self {n : ℕ} (s : Finset (Fin n)) (w x : Fin n → ℚ) :
    wcorrNum s w x x = wcorrDenX s w x := by
  unfold wcorrNum wcorrDenX
  congr 1
  · congr 1
    exact Finset.sum_congr rfl fun k _ => by ring
  · rw [sq]

/-- With non-negative weights each one-variable denominator is
non-negative. -/
lemma wcorrDenX_nonneg {n : ℕ} (s : Finset (Fin n)) (w x : Fin n → ℚ)
    (hw : ∀ k ∈ s, 0 ≤ w k) : 0 ≤ wcorrDenX s w x := by
  have h := lagrange_sum s w x x
  rw [wcorrNum_self] at h
  have hnn : 0 ≤ ∑ i ∈ s, ∑ j ∈ s, w i * w j * ((x i - x j) * (x i - x j)) := by
    refine Finset.sum_nonneg fun i hi => Finset.sum_nonneg fun j hj => ?_
    exact mul_nonneg (mul_nonneg (hw i hi) (hw j hj)) (mul_self_nonneg _)
  linarith

/-- Cauchy–Schwarz for the weighted-correlation moments: the squared
numerator is bounded by the product of the two denominators. -/
lemma wcorrNum_sq_le {n : ℕ} (s : Finset (Fin n)) (w x y : Fin n → ℚ)
    (hw : ∀ k ∈ s, 0 ≤ w k) :
    wcorrNum s w x y ^ 2 ≤ wcorrDenX s w x * wcorrDenX s w y := by
  have key := weighted_cauchy_schwarz (s ×ˢ s) (fun pr => w pr.1 * w pr.2)
    (fun pr => x pr.1 - x pr.2) (fun pr => y pr.1 - y pr.2)
    (fun pr hpr => by
      rcases Finset.mem_product.mp hpr with ⟨h1, h2⟩
      exact mul_nonneg (hw _ h1) (hw _ h2))
  rw [Finset.sum_product, Finset.sum_product, Finset.sum_product] at key
  have e1 : (∑ i ∈ s, ∑ j ∈ s, w i * w j * ((x i - x j) * (y i - y j))) =
      2 * wcorrNum s w x y := lagrange_sum s w x y
  have e2 : (∑ i ∈ s, ∑ j ∈ s, w i * w j * (x i - x j) ^ 2) =
      2 * wcorrDenX s w x := by
    rw [← wcorrNum_self s w x, ← lagrange_sum s w x x]
    exact Finset.sum_congr rfl fun i _ =>
      Finset.sum_congr rfl fun j _ => by ring
  have e3 : (∑ i ∈ s, ∑ j ∈ s, w i * w j * (y i - y j) ^ 2) =
      2 * wcorrDenX s w y := by
    rw [← wcorrNum_self s w y, ← lagrange_sum s w y y]
    exact Finset.sum_congr rfl fun i _ =>
      Finset.sum_congr rfl fun j _ => by ring
  rw [e1] at key
  calc wcorrNum s w x y ^ 2 ≤
      (2 * wcorrDenX s w x) * (2 * wcorrDenX s w y) / 4 := by
        rw [← e2, ← e3]; linarith
    _ = wcorrDenX s w x * wcorrDenX s w y := by ring

/-- The value returned by `_wcorr` lies in `[-1, 1]` whenever the masked
weights are non-negative. -/
lemma wcorr_bound {n : ℕ} (s : Finset (Fin n)) (w x y : Fin n → ℚ)
    (rank : Bool) (hw : ∀ k ∈ s, 0 ≤ w k) :
    -1 ≤ wcorr s w x y rank ∧ wcorr s w x y rank ≤ 1 := by
  unfold wcorr
  dsimp only
  set x' := if rank = true then ordRank s x else x with hx'
  set y' := if rank = true then ordRank s y else y with hy'
  split_ifs with h
  · norm_num
  · push_neg at h
    obtain ⟨hden, _⟩ := h
    have hdx := wcorrDenX_nonneg s w x' hw
    have hdy := wcorrDenX_nonneg s w y' hw
    have hsq := wcorrNum_sq_le s w x' y' hw
    have hdpos : (0 : ℚ) < wcorrDen s w x' y' :=
      lt_of_le_of_ne (mul_nonneg hdx hdy) (by unfold wcorrDen at hden ⊢; exact Ne.symm hden)
    have hDpos : (0 : ℝ) < ((wcorrDen s w x' y' : ℚ) : ℝ) := by exact_mod_cast hdpos
    have habs : |((wcorrNum s w x' y' : ℚ) : ℝ)| ≤
        Real.sqrt ((wcorrDen s w x' y' : ℚ) : ℝ) := by
      apply Real.abs_le_sqrt
      have : ((wcorrNum s w x' y' ^ 2 : ℚ) : ℝ) ≤ ((wcorrDen s w x' y' : ℚ) : ℝ) := by
        unfold wcorrDen
        exact_mod_cast hsq
      push_cast at this ⊢
      linarith
    have hsp : 0 < Real.sqrt ((wcorrDen s w x' y' : ℚ) : ℝ) := Real.sqrt_pos.mpr hDpos
    have hd : |((wcorrNum s w x' y' : ℚ) : ℝ) /
        Real.sqrt ((wcorrDen s w x' y' : ℚ) : ℝ)| ≤ 1 := by
      rw [abs_div, abs_of_pos hsp]
      exact (div_le_one hsp).mpr habs
    rcases abs_le.mp hd with ⟨h1, h2⟩
    exact ⟨h1, h2⟩

/-- The clip `np.clip(r, -1, 1)` always lands in `[-1, 1]`. -/
lemma npClip_mem (r : ℝ) : -1 ≤ npClip (-1) 1 r ∧ npClip (-1) 1 r ≤ 1 := by
  unfold npClip
  constructor
  · exact le_min (by norm_num) (le_max_left _ _)
  · exact min_le_left _ _

/-- The clip `np.clip(r, -1, 1)` is the identity on `[-1, 1]`. -/
lemma npClip_eq_self {r : ℝ} (h1 : -1 ≤ r) (h2 : r ≤ 1) : npClip (-1) 1 r = r := by
  unfold npClip
  rw [max_eq_right h1, min_eq_right h2]

/-- A quotient by the square root of a dominating denominator lies in
`[-1, 1]`. -/
lemma div_sqrt_mem (num den : ℚ) (hle : num ^ 2 ≤ den) (hpos : 0 < den) :
    -1 ≤ (num : ℝ) / Real.sqrt ((den : ℚ) : ℝ) ∧
      (num : ℝ) / Real.sqrt ((den : ℚ) : ℝ) ≤ 1 := by
  have hDpos : (0 : ℝ) < ((den : ℚ) : ℝ) := by exact_mod_cast hpos
  have habs : |((num : ℚ) : ℝ)| ≤ Real.sqrt ((den : ℚ) : ℝ) := by
    apply Real.abs_le_sqrt
    exact_mod_cast hle
  have hsp : 0 < Real.sqrt ((den : ℚ) : ℝ) := Real.sqrt_pos.mpr hDpos
  have hd : |((num : ℚ) : ℝ) / Real.sqrt ((den : ℚ) : ℝ)| ≤ 1 := by
    rw [abs_div, abs_of_pos hsp]
    exact (div_le_one hsp).mpr habs
  exact abs_le.mp hd

/-- A non-negative row of `dist` with zero row-sum is identically zero. -/
lemma row_zero_of_sum_zero {S : ℕ} (dist : Fin S → Fin S → ℚ) (i : Fin S)
    (hw : ∀ k, 0 ≤ dist i k) (hz : weightSums dist i = 0) :
    ∀ k, dist i k = 0 := fun k =>
  (Finset.sum_eq_zero_iff_of_nonneg fun j _ => hw j).mp hz k (Finset.mem_univ k)

/-- If the masked weights sum to zero and the threshold is non-negative,
the mask is empty. -/
lemma maskOf_empty_of_sum_zero {n : ℕ} (w : Fin n → ℚ) (thr : ℚ)
    (hthr : 0 ≤ thr) (hz : wsumOf (maskOf w thr) w = 0) : maskOf w thr = ∅ := by
  by_contra hne
  have hpos : 0 < wsumOf (maskOf w thr) w := by
    apply Finset.sum_pos
    · intro k hk
      have : thr < w k := by simpa [maskOf] using hk
      linarith
    · exact Finset.nonempty_of_ne_empty hne
  exact absurd hz (ne_of_gt hpos)

/-- Evaluating `_wcorr` over an empty mask returns `0`. -/
lemma wcorr_empty {n : ℕ} (w x y : Fin n → ℚ) (rank : Bool) :
    wcorr (∅ : Finset (Fin n)) w x y rank = 0 := by
  unfold wcorr
  dsimp only
  rw [if_pos]
  right
  simp [wcorrNum, wsumOf]

/-- With the weight threshold `0` and non-negative weights, summing a
weight-carrying term over the mask equals summing it over all spots. -/
lemma maskOf_sum_eq {n : ℕ} (w : Fin n → ℚ) (t : Fin n → ℚ)
    (hw : ∀ k, 0 ≤ w k) :
    ∑ k ∈ maskOf w 0, w k * t k = ∑ k, w k * t k := by
  apply Finset.sum_subset (Finset.subset_univ _)
  intro k _ hk
  have hnk : ¬ (0 < w k) := by simpa [maskOf] using hk
  have h0 : w k = 0 := le_antisymm (not_lt.mp hnk) (hw k)
  rw [h0, zero_mul]

/-- With the weight threshold `0` and non-negative weights, the masked
weight sum is the full row sum. -/
lemma maskOf_wsum_eq {n : ℕ} (w : Fin n → ℚ) (hw : ∀ k, 0 ≤ w k) :
    wsumOf (maskOf w 0) w = ∑ k, w k := by
  unfold wsumOf
  apply Finset.sum_subset (Finset.subset_univ _)
  intro k _ hk
  have hnk : ¬ (0 < w k) := by simpa [maskOf] using hk
  exact le_antisymm (not_lt.mp hnk) (hw k)

/-- With threshold `0` and a non-negative weight row, the masked
numerator coincides with the vectorized numerator (pearson columns). -/
lemma masked_num_eq_vec {S P : ℕ} (x_mat y_mat : Fin S → Fin P → ℚ)
    (dist : Fin S → Fin S → ℚ) (p : Fin P) (i : Fin S)
    (hw : ∀ k, 0 ≤ dist i k) :
    wcorrNum (maskOf (dist i) 0) (dist i)
      (fun k => x_mat k p) (fun k => y_mat k p) =
      vecNumerator x_mat y_mat dist false p i := by
  unfold wcorrNum vecNumerator
  rw [maskOf_wsum_eq _ hw]
  have h1 : ∑ k ∈ maskOf (dist i) 0, dist i k * x_mat k p * y_mat k p =
      ∑ k, vecCol x_mat false p k * vecCol y_mat false p k * dist i k := by
    rw [show (fun k => dist i k * x_mat k p * y_mat k p) =
        fun k => dist i k * (x_mat k p * y_mat k p) from funext fun k => by ring,
      maskOf_sum_eq _ _ hw]
    exact Finset.sum_congr rfl fun k _ => by simp [vecCol]; ring
  have h2 : ∑ k ∈ maskOf (dist i) 0, dist i k * x_mat k p =
      wdot dist (vecCol x_mat false p) i := by
    rw [maskOf_sum_eq _ _ hw]
    exact Finset.sum_congr rfl fun k _ => by simp [wdot, vecCol]; ring
  have h3 : ∑ k ∈ maskOf (dist i) 0, dist i k * y_mat k p =
      wdot dist (vecCol y_mat false p) i := by
    rw [maskOf_sum_eq _ _ hw]
    exact Finset.sum_congr rfl fun k _ => by simp [wdot, vecCol]; ring
  rw [h1, h2, h3]
  unfold weightSums
  ring

/-- With threshold `0` and a non-negative weight row, the masked
one-variable denominator coincides with the vectorized one. -/
lemma masked_denX_eq_vec {S P : ℕ} (x_mat : Fin S → Fin P → ℚ)
    (dist : Fin S → Fin S → ℚ) (p : Fin P) (i : Fin S)
    (hw : ∀ k, 0 ≤ dist i k) :
    wcorrDenX (maskOf (dist i) 0) (dist i) (fun k => x_mat k p) =
      vecDenX dist (vecCol x_mat false p) i := by
  unfold wcorrDenX vecDenX
  rw [maskOf_wsum_eq _ hw]
  have h1 : ∑ k ∈ maskOf (dist i) 0, dist i k * x_mat k p ^ 2 =
      ∑ k, vecCol x_mat false p k ^ 2 * dist i k := by
    rw [show (fun k => dist i k * x_mat k p ^ 2) =
        fun k => dist i k * (x_mat k p ^ 2) from funext fun k => rfl,
      maskOf_sum_eq _ _ hw]
    exact Finset.sum_congr rfl fun k _ => by simp [vecCol]; ring
  have h2 : ∑ k ∈ maskOf (dist i) 0, dist i k * x_mat k p =
      wdot dist (vecCol x_mat false p) i := by
    rw [maskOf_sum_eq _ _ hw]
    exact Finset.sum_congr rfl fun k _ => by simp [wdot, vecCol]; ring
  rw [h1, h2]
  unfold weightSums
  rfl

/-- Zero weight row: every vectorized correlation moment vanishes. -/
lemma vec_moments_zero {S P : ℕ} (x_mat y_mat : Fin S → Fin P → ℚ)
    (dist : Fin S → Fin S → ℚ) (rank : Bool) (p : Fin P) (i : Fin S)
    (hrow : ∀ k, dist i k = 0) :
    vecNumerator x_mat y_mat dist rank p i = 0 ∧
      vecDenominator x_mat y_mat dist rank p i = 0 := by
  have hws : weightSums dist i = 0 := by
    unfold weightSums; exact Finset.sum_eq_zero fun k _ => hrow k
  have hwd : ∀ v : Fin S → ℚ, wdot dist v i = 0 := by
    intro v; unfold wdot
    exact Finset.sum_eq_zero fun k _ => by rw [hrow k, mul_zero]
  constructor
  · unfold vecNumerator
    rw [hws, hwd, hwd]
    ring
  · unfold vecDenominator vecDenX
    rw [hws, hwd, hwd]
    have hs : ∀ v : Fin S → ℚ, (∑ k, v k ^ 2 * dist i k) = 0 := by
      intro v; exact Finset.sum_eq_zero fun k _ => by rw [hrow k, mul_zero]
    rw [hs, hs]
    ring

/-- Unfolding of `_wcorr` for the pearson method. -/
lemma wcorr_rank_false {n : ℕ} (s : Finset (Fin n)) (w x y : Fin n → ℚ) :
    wcorr s w x y false =
      if wcorrDen s w x y = 0 ∨ wcorrNum s w x y = 0 then 0
      else (wcorrNum s w x y : ℝ) / Real.sqrt ((wcorrDen s w x y : ℝ)) := rfl

/-- Unfolding of `_wcorr` for the spearman method (ordinal ranks of the
masked subvectors). -/
lemma wcorr_rank_true {n : ℕ} (s : Finset (Fin n)) (w x y : Fin n → ℚ) :
    wcorr s w x y true =
      if wcorrDen s w (ordRank s x) (ordRank s y) = 0 ∨
          wcorrNum s w (ordRank s x) (ordRank s y) = 0 then 0
      else (wcorrNum s w (ordRank s x) (ordRank s y) : ℝ) /
        Real.sqrt ((wcorrDen s w (ordRank s x) (ordRank s y) : ℝ)) := rfl

/-- Unfolding of `_vectorized_correlations` into its moments. -/
lemma vectorized_correlations_def {S P : ℕ} (x_mat y_mat : Fin S → Fin P → ℚ)
    (dist : Fin S → Fin S → ℚ) (rank : Bool) (p : Fin P) (i : Fin S) :
    vectorized_correlations x_mat y_mat dist rank p i =
      npClip (-1) 1
        (if clampDenominator (vecDenominator x_mat y_mat dist rank p i) = 0 then 0
         else (vecNumerator x_mat y_mat dist rank p i : ℝ) /
           Real.sqrt ((clampDenominator (vecDenominator x_mat y_mat dist rank p i) : ℝ))) :=
  rfl

/-- A clamped denominator below the `1e-6` threshold forces the
vectorized correlation to exactly `0`. -/
lemma vectorized_correlations_zero_of_small_den {S P : ℕ}
    (x_mat y_mat : Fin S → Fin P → ℚ) (dist : Fin S → Fin S → ℚ)
    (rank : Bool) (p : Fin P) (i : Fin S)
    (h : vecDenominator x_mat y_mat dist rank p i < denomEps) :
    vectorized_correlations x_mat y_mat dist rank p i = 0 := by
  rw [vectorized_correlations_def]
  rw [show clampDenominator (vecDenominator x_mat y_mat dist rank p i) = 0 from
    if_pos h]
  rw [if_pos rfl]
  unfold npClip
  norm_num

/-! ### Claim theorems -/

/-- Concrete all-ones weight matrix and entity matrix on one spot. -/
def w1 : Fin 1 → Fin 1 → ℚ := fun _ _ => 1

/-- Concrete all-zero weight matrix on one spot. -/
def zw : Fin 1 → Fin 1 → ℚ := fun _ _ => 0

/-- C1 (amended): a zero (masked) weight-sum row yields exactly 0 in all
methods of both engines, and the vectorized engine yields exactly 0 at
every cell whose denominator is below the 1e-6 clamp; the masked engine
has no such near-zero clamp (see the counterexample). -/
theorem c1_zero_policies {S P : ℕ} (x_mat y_mat : Fin S → Fin P → ℚ)
    (dist : Fin S → Fin S → ℚ) (rank : Bool) (thr : ℚ) (p : Fin P) (i : Fin S)
    (hw : ∀ k, 0 ≤ dist i k) (hthr : 0 ≤ thr) :
    (weightSums dist i = 0 →
      vectorized_correlations x_mat y_mat dist rank p i = 0 ∧
      vectorized_wcosine x_mat y_mat dist p i = 0 ∧
      vectorized_jaccard x_mat y_mat dist p i = 0) ∧
    (wsumOf (maskOf (dist i) thr) (dist i) = 0 →
      masked_coexpressions x_mat y_mat dist thr rank i p = 0) ∧
    (vecDenominator x_mat y_mat dist rank p i < denomEps →
      vectorized_correlations x_mat y_mat dist rank p i = 0) := by
  refine ⟨?_, ?_, vectorized_correlations_zero_of_small_den _ _ _ _ _ _⟩
  · intro hz
    have hrow := row_zero_of_sum_zero dist i hw hz
    obtain ⟨hnum, hden⟩ := vec_moments_zero x_mat y_mat dist rank p i hrow
    refine ⟨?_, ?_, ?_⟩
    · apply vectorized_correlations_zero_of_small_den
      rw [hden]
      unfold denomEps
      norm_num
    · unfold vectorized_wcosine
      have hxy : (∑ k, x_mat k p * y_mat k p * dist i k) = 0 :=
        Finset.sum_eq_zero fun k _ => by rw [hrow k, mul_zero]
      rw [hxy]
      norm_num
    · unfold vectorized_jaccard
      have hmin : (∑ k, min (binPos (x_mat k p)) (binPos (y_mat k p)) * dist i k) = 0 :=
        Finset.sum_eq_zero fun k _ => by rw [hrow k, mul_zero]
      rw [hmin, zero_div]
  · intro hz
    unfold masked_coexpressions
    rw [maskOf_empty_of_sum_zero _ _ hthr hz]
    exact wcorr_empty _ _ _ _

/-- Witness for `c1_zero_policies` at the all-zero one-spot weights. -/
theorem c1_zero_policies_witness :
    ((∀ k : Fin 1, 0 ≤ zw 0 k) ∧ (0 : ℚ) ≤ 0 ∧ weightSums zw 0 = 0) ∧
      vectorized_correlations w1 w1 zw false 0 0 = 0 ∧
      vectorized_wcosine w1 w1 zw 0 0 = 0 ∧
      vectorized_jaccard w1 w1 zw 0 0 = 0 :=
  ⟨⟨by decide, le_refl 0, by simp [weightSums, zw]⟩,
    (c1_zero_policies w1 w1 zw false 0 0 0 (by decide) (le_refl 0)).1
      (by simp [weightSums, zw])⟩

/-- The two-spot input exhibiting a nonzero masked statistic at a cell
whose denominator is positive but below the vectorized engine's `1e-6`
clamp. -/
def c1x : Fin 2 → Fin 1 → ℚ := fun s _ => if s = 0 then 0 else 1 / 1000

/-- The all-ones two-spot weight matrix. -/
def ww2 : Fin 2 → Fin 2 → ℚ := fun _ _ => 1

/-- C1 counterexample: at a near-zero-denominator cell (denominator
`1e-12`, below the `1e-6` epsilon) the masked engine returns `1`, not
`0`. -/
theorem c1_cex_masked_near_zero_denominator :
    (0 < wcorrDen (maskOf (ww2 0) 0) (ww2 0)
        (fun k => c1x k 0) (fun k => c1x k 0) ∧
      wcorrDen (maskOf (ww2 0) 0) (ww2 0)
        (fun k => c1x k 0) (fun k => c1x k 0) < denomEps) ∧
    masked_coexpressions c1x c1x ww2 0 false 0 0 = 1 := by
  have hden : wcorrDen (maskOf (ww2 0) 0) (ww2 0)
      (fun k => c1x k 0) (fun k => c1x k 0) = 1 / 1000000000000 := by
    norm_num [wcorrDen, wcorrDenX, wsumOf, maskOf, c1x, ww2, Finset.sum_filter,
      Fin.sum_univ_two]
  have hnum : wcorrNum (maskOf (ww2 0) 0) (ww2 0)
      (fun k => c1x k 0) (fun k => c1x k 0) = 1 / 1000000 := by
    norm_num [wcorrNum, wsumOf, maskOf, c1x, ww2, Finset.sum_filter,
      Fin.sum_univ_two]
  refine ⟨⟨by rw [hden]; norm_num, by rw [hden]; unfold denomEps; norm_num⟩, ?_⟩
  unfold masked_coexpressions
  rw [wcorr_rank_false]
  rw [if_neg (by rw [hden, hnum]; norm_num)]
  rw [hnum, hden]
  rw [show ((1 / 1000000000000 : ℚ) : ℝ) = (1 / 1000000 : ℝ) ^ 2 by norm_num]
  rw [Real.sqrt_sq (by norm_num)]
  norm_num

/-- C3: Pearson/Spearman outputs of both engines lie in `[-1, 1]`: the
vectorized engine by its final clip, the masked engine by
Cauchy–Schwarz, given the non-negative weights of a proximity matrix. -/
theorem c3_unit_interval {S P : ℕ} (x_mat y_mat : Fin S → Fin P → ℚ)
    (dist : Fin S → Fin S → ℚ) (rank : Bool) (thr : ℚ) (p : Fin P) (i : Fin S)
    (hw : ∀ k, 0 ≤ dist i k) :
    (-1 ≤ vectorized_correlations x_mat y_mat dist rank p i ∧
      vectorized_correlations x_mat y_mat dist rank p i ≤ 1) ∧
    (-1 ≤ masked_coexpressions x_mat y_mat dist thr rank i p ∧
      masked_coexpressions x_mat y_mat dist thr rank i p ≤ 1) := by
  constructor
  · rw [vectorized_correlations_def]
    exact npClip_mem _
  · unfold masked_coexpressions
    exact wcorr_bound _ _ _ _ rank fun k _ => hw k

/-- Witness for `c3_unit_interval` at the all-ones one-spot input. -/
theorem c3_unit_interval_witness :
    (∀ k : Fin 1, 0 ≤ w1 0 k) ∧
      -1 ≤ masked_coexpressions w1 w1 w1 0 false 0 0 ∧
      masked_coexpressions w1 w1 w1 0 false 0 0 ≤ 1 :=
  ⟨by decide, (c3_unit_interval w1 w1 w1 false 0 0 0 (by decide)).2⟩

/-- C4: `_simplify_cats` replaces only exact matches of its dict keys
(`DataFrame.replace` without `regex=True`), so `PP`, `PN`, `NP`, `NN` are
mapped as documented but every label containing `Z` is left unchanged —
contradicting both the claim and the function's own docstring. -/
theorem c4_simplify_eval :
    simplify_cats "PP" = DfCell.ival 1 ∧
    simplify_cats "PN" = DfCell.ival (-1) ∧
    simplify_cats "NP" = DfCell.ival (-1) ∧
    simplify_cats "NN" = DfCell.ival 0 ∧
    simplify_cats "PZ" = DfCell.sval "PZ" ∧
    simplify_cats "ZP" = DfCell.sval "ZP" ∧
    simplify_cats "ZZ" = DfCell.sval "ZZ" ∧
    simplify_cats "NZ" = DfCell.sval "NZ" ∧
    simplify_cats "ZN" = DfCell.sval "ZN" := by
  decide

/-- C2 (amended): for the Pearson method, with non-negative weights and
the masked path run at threshold `0`, the two engine implementations
agree exactly at every cell whose denominator is not strictly between
`0` and the `1e-6` clamp.  (The Spearman variants differ on ties — see
the counterexample: only the vectorized engine uses average ranks.) -/
theorem c2_pearson_engines_agree {S P : ℕ} (x_mat y_mat : Fin S → Fin P → ℚ)
    (dist : Fin S → Fin S → ℚ) (p : Fin P) (i : Fin S)
    (hw : ∀ k, 0 ≤ dist i k)
    (hden : ¬(0 < vecDenominator x_mat y_mat dist false p i ∧
      vecDenominator x_mat y_mat dist false p i < denomEps)) :
    masked_coexpressions x_mat y_mat dist 0 false i p =
      vectorized_correlations x_mat y_mat dist false p i := by
  have hmask : ∀ k ∈ maskOf (dist i) 0, 0 ≤ dist i k := fun k _ => hw k
  have hnumeq := masked_num_eq_vec x_mat y_mat dist p i hw
  have hdeneq : wcorrDen (maskOf (dist i) 0) (dist i)
      (fun k => x_mat k p) (fun k => y_mat k p) =
      vecDenominator x_mat y_mat dist false p i := by
    unfold wcorrDen vecDenominator
    rw [masked_denX_eq_vec x_mat dist p i hw, masked_denX_eq_vec y_mat dist p i hw]
  have hdnonneg : 0 ≤ vecDenominator x_mat y_mat dist false p i := by
    rw [← hdeneq]
    exact mul_nonneg (wcorrDenX_nonneg _ _ _ hmask) (wcorrDenX_nonneg _ _ _ hmask)
  unfold masked_coexpressions
  rw [wcorr_rank_false, vectorized_correlations_def]
  rcases eq_or_lt_of_le hdnonneg with h0 | hpos
  · rw [if_pos (Or.inl (hdeneq.trans h0.symm))]
    rw [show clampDenominator (vecDenominator x_mat y_mat dist false p i) = 0 by
      rw [← h0]; unfold clampDenominator denomEps; norm_num]
    rw [if_pos rfl]
    unfold npClip
    norm_num
  · have hclamp : clampDenominator (vecDenominator x_mat y_mat dist false p i) =
        vecDenominator x_mat y_mat dist false p i := by
      unfold clampDenominator
      exact if_neg fun hlt => hden ⟨hpos, hlt⟩
    rw [hclamp]
    by_cases hzero : vecNumerator x_mat y_mat dist false p i = 0
    · rw [if_pos (Or.inr (hnumeq.trans hzero)),
        if_neg (by exact ne_of_gt hpos), hzero]
      push_cast
      rw [zero_div]
      unfold npClip
      norm_num
    · have hsq : vecNumerator x_mat y_mat dist false p i ^ 2 ≤
          vecDenominator x_mat y_mat dist false p i := by
        rw [← hnumeq, ← hdeneq]
        unfold wcorrDen
        exact wcorrNum_sq_le _ _ _ _ hmask
      have hmem := div_sqrt_mem _ _ hsq hpos
      have h1 : ¬(wcorrDen (maskOf (dist i) 0) (dist i)
          (fun k => x_mat k p) (fun k => y_mat k p) = 0 ∨
          wcorrNum (maskOf (dist i) 0) (dist i)
            (fun k => x_mat k p) (fun k => y_mat k p) = 0) := by
        rw [hdeneq, hnumeq]
        push_neg
        exact ⟨ne_of_gt hpos, hzero⟩
      rw [if_neg h1, if_neg (ne_of_gt hpos), hdeneq, hnumeq,
        npClip_eq_self hmem.1 hmem.2]

/-- Concrete two-spot entity column `(0, 1)`. -/
def c2wx : Fin 2 → Fin 1 → ℚ := fun s _ => if s = 0 then 0 else 1

/-- Witness for `c2_pearson_engines_agree` at a well-conditioned
two-spot input. -/
theorem c2_pearson_engines_agree_witness :
    ((∀ k : Fin 2, 0 ≤ ww2 0 k) ∧
      ¬(0 < vecDenominator c2wx c2wx ww2 false 0 0 ∧
        vecDenominator c2wx c2wx ww2 false 0 0 < denomEps)) ∧
    masked_coexpressions c2wx c2wx ww2 0 false 0 0 =
      vectorized_correlations c2wx c2wx ww2 false 0 0 :=
  ⟨⟨by decide, by
      norm_num [vecDenominator, vecDenX, vecCol, weightSums, wdot, denomEps,
        c2wx, ww2, Fin.sum_univ_two]⟩,
    c2_pearson_engines_agree c2wx c2wx ww2 0 0 (by decide) (by
      norm_num [vecDenominator, vecDenX, vecCol, weightSums, wdot, denomEps,
        c2wx, ww2, Fin.sum_univ_two])⟩

/-- Three-spot entity column `(1, 1, 2)` — with a tie. -/
def c2x : Fin 3 → Fin 1 → ℚ := fun s _ => if s = 0 then 1 else if s = 1 then 1 else 2

/-- Three-spot entity column `(1, 2, 3)`. -/
def c2y : Fin 3 → Fin 1 → ℚ := fun s _ => if s = 0 then 1 else if s = 1 then 2 else 3

/-- All-ones three-spot weight matrix. -/
def w3 : Fin 3 → Fin 3 → ℚ := fun _ _ => 1

/-- C2 counterexample: on the tied input `x = (1,1,2)`, `y = (1,2,3)`
with uniform weights, the masked Spearman gives exactly `1` (ordinal
ranks break the tie) while the vectorized Spearman gives `4.5/√27 < 0.9`
(average ranks keep it): the engines disagree by far more than `1e-5`,
and the masked variant does not use the average-rank convention. -/
theorem c2_cex_spearman_tie_ranks :
    (1 : ℝ) / 100000 <
      |masked_coexpressions c2x c2y w3 0 true 0 0 -
        vectorized_correlations c2x c2y w3 true 0 0| := by
  have hm : maskOf (w3 0) 0 = Finset.univ := by decide
  have hrx : ordRank Finset.univ (fun k => c2x k 0) = ![0, 1, 2] := by
    funext k
    fin_cases k <;> simp only [ordRank] <;> norm_cast
  have hry : ordRank Finset.univ (fun k => c2y k 0) = ![0, 1, 2] := by
    funext k
    fin_cases k <;> simp only [ordRank] <;> norm_cast
  have hmnum : wcorrNum Finset.univ (w3 0) ![0, 1, 2] ![0, 1, 2] = 6 := by
    norm_num [wcorrNum, wsumOf, w3, Fin.sum_univ_three]
  have hmden : wcorrDen Finset.univ (w3 0) ![0, 1, 2] ![0, 1, 2] = 36 := by
    norm_num [wcorrDen, wcorrDenX, wsumOf, w3, Fin.sum_univ_three]
  have hmasked : masked_coexpressions c2x c2y w3 0 true 0 0 = 1 := by
    unfold masked_coexpressions
    rw [wcorr_rank_true, hm, hrx, hry, hmnum, hmden]
    rw [if_neg (by norm_num)]
    rw [show ((36 : ℚ) : ℝ) = 6 ^ 2 by norm_num, Real.sqrt_sq (by norm_num)]
    norm_num
  have ha0 : avgRank (fun s => c2x s 0) 0 = 3 / 2 := by
    rw [avgRank,
      show (Finset.filter (fun j => c2x j 0 < c2x 0 0) Finset.univ).card = 0
        from by decide,
      show (Finset.filter (fun j => c2x j 0 = c2x 0 0) Finset.univ).card = 2
        from by decide]
    norm_num
  have ha1 : avgRank (fun s => c2x s 0) 1 = 3 / 2 := by
    rw [avgRank,
      show (Finset.filter (fun j => c2x j 0 < c2x 1 0) Finset.univ).card = 0
        from by decide,
      show (Finset.filter (fun j => c2x j 0 = c2x 1 0) Finset.univ).card = 2
        from by decide]
    norm_num
  have ha2 : avgRank (fun s => c2x s 0) 2 = 3 := by
    rw [avgRank,
      show (Finset.filter (fun j => c2x j 0 < c2x 2 0) Finset.univ).card = 2
        from by decide,
      show (Finset.filter (fun j => c2x j 0 = c2x 2 0) Finset.univ).card = 1
        from by decide]
    norm_num
  have hb0 : avgRank (fun s => c2y s 0) 0 = 1 := by
    rw [avgRank,
      show (Finset.filter (fun j => c2y j 0 < c2y 0 0) Finset.univ).card = 0
        from by decide,
      show (Finset.filter (fun j => c2y j 0 = c2y 0 0) Finset.univ).card = 1
        from by decide]
    norm_num
  have hb1 : avgRank (fun s => c2y s 0) 1 = 2 := by
    rw [avgRank,
      show (Finset.filter (fun j => c2y j 0 < c2y 1 0) Finset.univ).card = 1
        from by decide,
      show (Finset.filter (fun j => c2y j 0 = c2y 1 0) Finset.univ).card = 1
        from by decide]
    norm_num
  have hb2 : avgRank (fun s => c2y s 0) 2 = 3 := by
    rw [avgRank,
      show (Finset.filter (fun j => c2y j 0 < c2y 2 0) Finset.univ).card = 2
        from by decide,
      show (Finset.filter (fun j => c2y j 0 = c2y 2 0) Finset.univ).card = 1
        from by decide]
    norm_num
  have hvx : vecCol c2x true 0 = ![3 / 2, 3 / 2, 3] := by
    funext k
    fin_cases k
    · exact ha0
    · exact ha1
    · exact ha2
  have hvy : vecCol c2y true 0 = ![1, 2, 3] := by
    funext k
    fin_cases k
    · exact hb0
    · exact hb1
    · exact hb2
  have hvnum : vecNumerator c2x c2y w3 true 0 0 = 9 / 2 := by
    unfold vecNumerator
    rw [hvx, hvy]
    norm_num [weightSums, wdot, w3, Fin.sum_univ_three]
  have hvden : vecDenominator c2x c2y w3 true 0 0 = 27 := by
    unfold vecDenominator vecDenX
    rw [hvx, hvy]
    norm_num [weightSums, wdot, w3, Fin.sum_univ_three]
  have hv : vectorized_correlations c2x c2y w3 true 0 0 =
      npClip (-1) 1 ((9 / 2 : ℝ) / Real.sqrt (((27 : ℚ) : ℝ))) := by
    rw [vectorized_correlations_def, hvnum, hvden,
      show clampDenominator (27 : ℚ) = 27 by unfold clampDenominator denomEps; norm_num,
      if_neg (by norm_num)]
    norm_num
  have hs5 : (5 : ℝ) ≤ Real.sqrt (((27 : ℚ) : ℝ)) := by
    rw [show (((27 : ℚ) : ℝ)) = 27 by norm_num]
    exact (Real.le_sqrt (by norm_num) (by norm_num)).mpr (by norm_num)
  have hr0 : (0 : ℝ) ≤ (9 / 2 : ℝ) / Real.sqrt (((27 : ℚ) : ℝ)) :=
    div_nonneg (by norm_num) (Real.sqrt_nonneg _)
  have hrle : (9 / 2 : ℝ) / Real.sqrt (((27 : ℚ) : ℝ)) ≤ 9 / 10 := by
    calc (9 / 2 : ℝ) / Real.sqrt (((27 : ℚ) : ℝ)) ≤ (9 / 2 : ℝ) / 5 := by
          gcongr
      _ = 9 / 10 := by norm_num
  have hvle : vectorized_correlations c2x c2y w3 true 0 0 ≤ 9 / 10 := by
    rw [hv]
    unfold npClip
    calc min 1 (max (-1) ((9 / 2 : ℝ) / Real.sqrt (((27 : ℚ) : ℝ)))) ≤
        max (-1) ((9 / 2 : ℝ) / Real.sqrt (((27 : ℚ) : ℝ))) := min_le_right _ _
      _ = (9 / 2 : ℝ) / Real.sqrt (((27 : ℚ) : ℝ)) := max_eq_right (by linarith)
      _ ≤ 9 / 10 := hrle
  have hvge : (0 : ℝ) ≤ vectorized_correlations c2x c2y w3 true 0 0 := by
    rw [hv]
    unfold npClip
    exact le_min (by norm_num) (le_max_of_le_right hr0)
  rw [hmasked]
  rw [abs_of_nonneg (by linarith)]
  linarith

/-- A trivial statistic function on one spot and one pair, used as a
concrete `local_fun` in witnesses. -/
def c6f : (Fin 1 → Fin 1 → ℚ) → (Fin 1 → Fin 1 → ℚ) → (Fin 1 → Fin 1 → ℚ) →
    Fin 1 → Fin 1 → ℚ := fun _ _ _ _ _ => 0

/-- C6: with `positive_only=True` the permutation tester returns exactly
`1` at every cell whose original `x` and `y` values are both `≤ 0`, and
the accumulated `count / n_perm` at every other cell. -/
theorem c6_positive_only_mask {S P : ℕ} (x_mat y_mat : Fin S → Fin P → ℚ)
    (dist : Fin S → Fin S → ℚ) (local_truth : Fin P → Fin S → ℚ)
    (local_fun : (Fin S → Fin P → ℚ) → (Fin S → Fin P → ℚ) →
      (Fin S → Fin S → ℚ) → Fin P → Fin S → ℚ)
    (n_perm : ℤ) (seed : ℕ) (hn : n_perm ≠ 0) (p : Fin P) (s : Fin S) :
    local_permutation_pvals_values x_mat y_mat dist local_truth local_fun
        n_perm seed true p s =
      if x_mat s p ≤ 0 ∧ y_mat s p ≤ 0 then some 1
      else some (permCounts x_mat y_mat dist local_truth local_fun true
        n_perm seed p s / (n_perm : ℚ)) := by
  unfold local_permutation_pvals_values
  by_cases h : x_mat s p ≤ 0 ∧ y_mat s p ≤ 0
  · rw [if_pos h, if_pos ⟨rfl, by push_neg; exact ⟨h.1, h.2⟩⟩]
  · rw [if_neg h, if_neg, if_neg hn]
    intro hc
    rcases not_and_or.mp h with hx | hy
    · exact hc.2 (Or.inl (not_le.mp hx))
    · exact hc.2 (Or.inr (not_le.mp hy))

/-- Witness for `c6_positive_only_mask` at an all-zero input, where every
cell is masked to `1`. -/
theorem c6_positive_only_mask_witness :
    ((3 : ℤ) ≠ 0) ∧
      local_permutation_pvals_values zw zw zw zw c6f 3 5 true 0 0 = some 1 := by
  refine ⟨by decide, ?_⟩
  rw [c6_positive_only_mask zw zw zw zw c6f 3 5 (by decide) 0 0]
  rw [if_pos ⟨by decide, by decide⟩]

/-- C7: two calls of the permutation tester with identical inputs and the
same seed return identical p-value matrices (the only randomness source
is the generator seeded inside the call). -/
theorem c7_seed_determinism {S P : ℕ} (x_mat y_mat : Fin S → Fin P → ℚ)
    (dist : Fin S → Fin S → ℚ) (local_truth : Fin P → Fin S → ℚ)
    (local_fun : (Fin S → Fin P → ℚ) → (Fin S → Fin P → ℚ) →
      (Fin S → Fin S → ℚ) → Fin P → Fin S → ℚ)
    (n_perm : ℤ) (positive_only : Bool) (seed1 seed2 : ℕ) (h : seed1 = seed2) :
    local_permutation_pvals x_mat y_mat dist local_truth local_fun n_perm
        seed1 positive_only =
      local_permutation_pvals x_mat y_mat dist local_truth local_fun n_perm
        seed2 positive_only := by
  rw [h]

/-- Witness for `c7_seed_determinism` at a concrete seed. -/
theorem c7_seed_determinism_witness :
    (5 = 5) ∧
      local_permutation_pvals zw zw zw zw c6f 2 5 true =
        local_permutation_pvals zw zw zw zw c6f 2 5 true :=
  ⟨rfl, c7_seed_determinism zw zw zw zw c6f 2 true 5 5 rfl⟩

/-- C8 counterexample: calling the permutation tester with `n_perm = 0`
(so `n_perm ≤ 0`) raises nothing — it returns normally, instead of
failing with a ConfigurationError. -/
theorem c8_cex_no_error_on_zero_nperm :
    local_permutation_pvals zw zw zw zw c6f 0 5 true =
      Except.ok (local_permutation_pvals_values zw zw zw zw c6f 0 5 true) := rfl

/-- C8 (amended): `_local_permutation_pvals` performs no validation of
`n_perm` and never raises an error of its own; with `n_perm = 0` the
permutation loop body never runs and every unmasked cell holds the
indeterminate `0.0 / 0` (NaN, modelled as `none`) instead of an error. -/
theorem c8_no_nperm_validation {S P : ℕ} (x_mat y_mat : Fin S → Fin P → ℚ)
    (dist : Fin S → Fin S → ℚ) (local_truth : Fin P → Fin S → ℚ)
    (local_fun : (Fin S → Fin P → ℚ) → (Fin S → Fin P → ℚ) →
      (Fin S → Fin S → ℚ) → Fin P → Fin S → ℚ)
    (n_perm : ℤ) (seed : ℕ) (positive_only : Bool) (p : Fin P) (s : Fin S)
    (h0 : n_perm = 0) (hpo : positive_only = false) :
    (∃ v, local_permutation_pvals x_mat y_mat dist local_truth local_fun
        n_perm seed positive_only = Except.ok v) ∧
      local_permutation_pvals_values x_mat y_mat dist local_truth local_fun
        n_perm seed positive_only p s = none := by
  subst h0 hpo
  exact ⟨⟨_, rfl⟩, by simp [local_permutation_pvals_values]⟩

/-- Witness for `c8_no_nperm_validation` at `n_perm = 0`. -/
theorem c8_no_nperm_validation_witness :
    ((0 : ℤ) = 0 ∧ false = false) ∧
      (∃ v, local_permutation_pvals zw zw zw zw c6f 0 5 false = Except.ok v) ∧
      local_permutation_pvals_values zw zw zw zw c6f 0 5 false 0 0 = none :=
  ⟨⟨rfl, rfl⟩, c8_no_nperm_validation zw zw zw zw c6f 0 5 false 0 0 rfl rfl⟩

/-- C9 (amended): `_encode_as_char` mean-centers only when the WHOLE
matrix is non-negative (not per column); in that case every non-constant
column yields at least one `'N'`. -/
theorem c9_global_nonneg_centering {S C : ℕ} (mat : Fin S → Fin C → ℚ)
    (c : Fin C) (hall : ∀ s c2, 0 ≤ mat s c2)
    (hne : ∃ s t : Fin S, mat s c ≠ mat t c) :
    (∀ s c2, encode_as_char mat s c2 =
      signChar (mat s c2 - colMean mat c2)) ∧
    ∃ s, encode_as_char mat s c = 'N' := by
  have hcode : ∀ s c2, encode_as_char mat s c2 =
      signChar (mat s c2 - colMean mat c2) := by
    intro s c2
    unfold encode_as_char
    rw [if_pos hall]
    rfl
  obtain ⟨s0, t0, hst⟩ := hne
  obtain ⟨m, -, hm⟩ := Finset.exists_min_image (Finset.univ : Finset (Fin S))
    (fun s => mat s c) ⟨s0, Finset.mem_univ s0⟩
  have hstrict : ∃ u ∈ Finset.univ, mat m c < mat u c := by
    rcases eq_or_lt_of_le (hm s0 (Finset.mem_univ s0)) with he | hlt
    · refine ⟨t0, Finset.mem_univ t0, ?_⟩
      rcases eq_or_lt_of_le (hm t0 (Finset.mem_univ t0)) with he' | hlt'
      · exact absurd (he.symm.trans he') hst
      · exact hlt'
    · exact ⟨s0, Finset.mem_univ s0, hlt⟩
  have hS : (0 : ℚ) < (S : ℚ) := by
    have := m.pos
    exact_mod_cast this
  have hsum : (S : ℚ) * mat m c < ∑ s, mat s c := by
    have h1 : ∑ _s : Fin S, mat m c < ∑ s, mat s c :=
      Finset.sum_lt_sum (fun i _ => hm i (Finset.mem_univ i)) hstrict
    calc (S : ℚ) * mat m c = ∑ _s : Fin S, mat m c := by
          rw [Finset.sum_const, Finset.card_univ, Fintype.card_fin, nsmul_eq_mul]
      _ < ∑ s, mat s c := h1
  have hlt : mat m c < colMean mat c := by
    unfold colMean
    rw [lt_div_iff₀ hS]
    calc mat m c * (S : ℚ) = (S : ℚ) * mat m c := by ring
      _ < ∑ s, mat s c := hsum
  refine ⟨hcode, ⟨m, ?_⟩⟩
  rw [hcode m c]
  unfold signChar
  rw [if_neg (by linarith), if_pos (by linarith)]

/-- Two-spot all-non-negative, non-constant single column. -/
def c9pos : Fin 2 → Fin 1 → ℚ := fun s _ => if s = 0 then 1 else 2

/-- Witness for `c9_global_nonneg_centering` on the column `(1, 2)`. -/
theorem c9_global_nonneg_centering_witness :
    ((∀ (s : Fin 2) (c2 : Fin 1), 0 ≤ c9pos s c2) ∧
      c9pos 0 0 ≠ c9pos 1 0) ∧
    ∃ s, encode_as_char c9pos s 0 = 'N' :=
  ⟨⟨by decide, by decide⟩,
    (c9_global_nonneg_centering c9pos 0 (by decide) ⟨0, 1, by decide⟩).2⟩

/-- The matrix whose first column is non-negative and non-constant but
whose second column holds a negative value, disabling all centering. -/
def c9mat : Fin 2 → Fin 2 → ℚ := fun s c =>
  if c = 0 then (if s = 0 then 1 else 2) else (if s = 0 then -1 else 0)

/-- C9 counterexample: column `0` of `c9mat` is all-non-negative with two
distinct values, yet `_encode_as_char` labels it `P, P` — no `'N'` —
because the negative entry in the OTHER column disables the (global, not
per-column) mean-centering. -/
theorem c9_cex_no_per_column_centering :
    (0 ≤ c9mat 0 0 ∧ 0 ≤ c9mat 1 0) ∧ c9mat 0 0 ≠ c9mat 1 0 ∧
      encode_as_char c9mat 0 0 = 'P' ∧ encode_as_char c9mat 1 0 = 'P' := by
  decide

/-- C10: `get_spatial_proximity` always stores the computed proximity
matrix into `adata.obsm['proximity']` — for valid inputs and regardless
of `inplace` — and the flag only selects whether the matrix is also
returned (`inplace = false`) or the return is `None` (`inplace = true`). -/
theorem c10_obsm_always_written {S : ℕ} (adata : AnnData S)
    (coords : Fin S → ℝ × ℝ) (parameter : ℝ) (family : String)
    (cutoff : Option ℝ) (n_neighbors : Option ℕ)
    (bypass_diagonal inplace : Bool)
    (hfam : family ∈ families)
    (hopt : ¬(cutoff.isNone ∧ n_neighbors.isNone))
    (hsp : adata.spatial = some coords) :
    get_spatial_proximity adata parameter family cutoff n_neighbors
        bypass_diagonal inplace =
      Except.ok
        (⟨adata.spatial,
           some (proximityOf coords parameter family cutoff n_neighbors
             bypass_diagonal)⟩,
         if inplace then none
         else some (proximityOf coords parameter family cutoff n_neighbors
           bypass_diagonal)) := by
  unfold get_spatial_proximity
  rw [if_neg (not_not_intro hfam), if_neg hopt, hsp]

/-- Concrete one-spot `AnnData` with coordinates present. -/
noncomputable def c10adata : AnnData 1 :=
  ⟨some (fun _ => ((0 : ℝ), (0 : ℝ))), none⟩

/-- Witness for `c10_obsm_always_written`: with `inplace = false` the
matrix is written into `.obsm` AND returned. -/
theorem c10_obsm_always_written_witness :
    ("linear" ∈ families ∧
      ¬((some (0 : ℝ)).isNone ∧ (none : Option ℕ).isNone) ∧
      c10adata.spatial = some (fun _ => ((0 : ℝ), (0 : ℝ)))) ∧
    get_spatial_proximity c10adata 1 "linear" (some 0) none false false =
      Except.ok
        (⟨c10adata.spatial,
           some (proximityOf (fun _ => ((0 : ℝ), (0 : ℝ))) 1 "linear" (some 0)
             none false)⟩,
         some (proximityOf (fun _ => ((0 : ℝ), (0 : ℝ))) 1 "linear" (some 0)
           none false)) :=
  ⟨⟨by decide, by simp, rfl⟩,
    c10_obsm_always_written c10adata (fun _ => ((0 : ℝ), (0 : ℝ))) 1 "linear"
      (some 0) none false false (by decide) (by simp) rfl⟩

/-- The returned (non-inplace) proximity matrix of a builder call. -/
def returnedProx {S : ℕ}
    (r : Except PyError (AnnData S × Option (Fin S → Fin S → ℝ))) :
    Option (Fin S → Fin S → ℝ) :=
  match r with
  | .ok pr => pr.2
  | .error _ => none

/-- Two spots at Euclidean distance `2`. -/
noncomputable def c5coords : Fin 2 → ℝ × ℝ :=
  fun s => if s = 0 then (0, 0) else (2, 0)

/-- C5: the family `'spatialdm'` passes validation but matches no branch
of the kernel chain (which tests `'misty_rbf'` instead), so the builder
returns the RAW pairwise distance (here `2`) instead of the rbf kernel
value `exp(-d²/param²) = exp(-4)`. -/
theorem c5_spatialdm_leaves_raw_distances :
    (returnedProx (get_spatial_proximity (S := 2) ⟨some c5coords, none⟩ 1
        "spatialdm" (some 0) none false false)).map (fun M => M 0 1) =
      some 2 ∧
    (2 : ℝ) ≠ Real.exp (-(2 : ℝ) ^ 2 / (1 : ℝ) ^ 2) := by
  constructor
  · have hcall : get_spatial_proximity (S := 2) ⟨some c5coords, none⟩ 1
        "spatialdm" (some 0) none false false =
        Except.ok
          (⟨some c5coords,
             some (proximityOf c5coords 1 "spatialdm" (some 0) none false)⟩,
           some (proximityOf c5coords 1 "spatialdm" (some 0) none false)) := by
      unfold get_spatial_proximity
      rw [if_neg (by decide), if_neg (by simp)]
      rfl
    rw [hcall]
    unfold returnedProx
    show some (proximityOf c5coords 1 "spatialdm" (some 0) none false 0 1) =
      some (2 : ℝ)
    have hd : euclidDist c5coords 0 1 = 2 := by
      have h0 : c5coords 0 = ((0 : ℝ), (0 : ℝ)) := by simp [c5coords]
      have h1 : c5coords 1 = ((2 : ℝ), (0 : ℝ)) := by
        have : (1 : Fin 2) ≠ 0 := by decide
        simp [c5coords, this]
      unfold euclidDist
      rw [h0, h1]
      norm_num
      rw [show (4 : ℝ) = 2 ^ 2 by norm_num]
      exact Real.sqrt_sq (by norm_num)
    have hker : applyKernel (S := 2) "spatialdm" 1 (euclidDist c5coords) =
        euclidDist c5coords := by
      unfold applyKernel
      rw [if_neg (by decide), if_neg (by decide), if_neg (by decide),
        if_neg (by decide)]
    unfold proximityOf
    rw [hker]
    show some (if euclidDist c5coords 0 1 < 0 then 0
      else euclidDist c5coords 0 1) = some (2 : ℝ)
    rw [hd, if_neg (by norm_num)]
  · have h1 : Real.exp (-(2 : ℝ) ^ 2 / (1 : ℝ) ^ 2) < 1 := by
      rw [Real.exp_lt_one_iff]
      norm_num
    intro heq
    rw [← heq] at h1
    norm_num at h1

end Liana
